import Mathlib

/-!
Shallow embedding of the screen-time-stats aggregation engine
(`src/main.rs`): the daily aggregator `analyze_usage`, the weekly
aggregator `analyze_weekly_usage`, the list/detail projection
`generate_entries_and_details`, and the navigation state machine of
`run_tui`, together with theorems settling the specification claims.

Modelling conventions:
* a `chrono::DateTime` is an instant, represented as `Int` unix seconds;
  `with_timezone(&Local)` does not change the instant, so it is the
  identity here (the timezone only matters when a calendar date is
  extracted, which takes the offset as an explicit parameter);
* a `chrono::NaiveDate` is represented as `Int` days since 1970-01-01;
* a `chrono::Duration` is represented as `Int` seconds;
* a Rust `HashMap` built with the `entry` API is represented as an
  association list in key-insertion order (`updAssoc`); all claim
  statements about maps are phrased through lookups, never through the
  (unspecified) iteration order;
* Rust's stable `sort_by_key` is modelled by `List.insertionSort` with a
  weak (`≤` on the key) relation, which is likewise a stable sort.
-/

/-- Model of the Rust struct `UsageData`: one foreground-usage event with
app name, usage seconds, and UTC start/end instants. -/
structure UsageData where
  app : String
  usage : Int
  start_time : Int
  end_time : Int
deriving DecidableEq

/-- Seconds in one day. -/
def secondsPerDay : Int := 86400

/-- Model of `DateTime<Utc>::date_naive()`: the UTC calendar date (as a day
number) containing the instant `t`. -/
def date_naive (t : Int) : Int := Int.fdiv t secondsPerDay

/-- Model of `DateTime<Local>::date_naive()` in a timezone whose offset from
UTC is `tzOffset` seconds: the local calendar date containing instant `t`. -/
def local_date_naive (tzOffset t : Int) : Int := Int.fdiv (t + tzOffset) secondsPerDay

/-- Model of the Rust struct `DailyUsage`. -/
structure DailyUsage where
  total_usage : Int
  first_usage : Int
  last_usage : Int
  per_app_usage : List (String × Int)
  breaks : List (Int × Int × Int)
  net_active_time : Int
deriving DecidableEq

/-- Model of `DailyUsage::default()` (Rust `Default`: zero instants, zero
durations, empty collections). -/
def DailyUsage.default0 : DailyUsage :=
  { total_usage := 0, first_usage := 0, last_usage := 0,
    per_app_usage := [], breaks := [], net_active_time := 0 }

/-- Model of the Rust `HashMap` update pattern
`*map.entry(k).or_insert_with(dflt) = f(...)`: if `k` is present its value
is transformed by `f` in place, otherwise `f dflt` is inserted (at the end,
recording insertion order). -/
def updAssoc {α β : Type} [DecidableEq α] (m : List (α × β)) (k : α) (dflt : β) (f : β → β) :
    List (α × β) :=
  match m with
  | [] => [(k, f dflt)]
  | (k1, v) :: rest => if k1 = k then (k1, f v) :: rest else (k1, v) :: updAssoc rest k dflt f

/-- Association-list lookup (the model of `HashMap` lookup). -/
def lookupA {α β : Type} [DecidableEq α] (k : α) : List (α × β) → Option β
  | [] => none
  | (k1, v) :: rest => if k1 = k then some v else lookupA k rest

/-- Lookup with a default, the model of reading a map entry that defaults
to `d` when absent. -/
def lookupD {α β : Type} [DecidableEq α] (k : α) (m : List (α × β)) (d : β) : β :=
  (lookupA k m).getD d

/-- Sum of the values of an association list. -/
def sumValues {α : Type} (m : List (α × Int)) : Int :=
  (m.map Prod.snd).sum

/-- The body of the first loop of `analyze_usage` applied to the entry for
the event's date: `total_usage += usage`, `per_app_usage[app] += usage`,
then the `first_usage`/`last_usage` min/max updates. -/
def apply_event (u : DailyUsage) (e : UsageData) : DailyUsage :=
  { u with
    total_usage := u.total_usage + e.usage
    per_app_usage := updAssoc u.per_app_usage e.app 0 (· + e.usage)
    first_usage := if e.start_time < u.first_usage then e.start_time else u.first_usage
    last_usage := if e.end_time > u.last_usage then e.end_time else u.last_usage }

/-- The value inserted by `or_insert_with` in `analyze_usage`: default with
`first_usage`/`last_usage` seeded from the event. -/
def daily_insert_default (e : UsageData) : DailyUsage :=
  { DailyUsage.default0 with first_usage := e.start_time, last_usage := e.end_time }

/-- One step of the first loop of `analyze_usage`: the event is bucketed
under `entry.start_time.date_naive()` (the UTC calendar date). -/
def daily_step (m : List (Int × DailyUsage)) (e : UsageData) : List (Int × DailyUsage) :=
  updAssoc m (date_naive e.start_time) (daily_insert_default e) (fun u => apply_event u e)

/-- The first loop of `analyze_usage` over the whole event list. -/
def daily_pass1 (data : List UsageData) : List (Int × DailyUsage) :=
  data.foldl daily_step []

/-- The session-collection loop of `analyze_usage`: the `(start, end)`
pairs of the events whose UTC start date equals `date`, in input order. -/
def sessions_for (data : List UsageData) (date : Int) : List (Int × Int) :=
  (data.filter (fun e => date_naive e.start_time = date)).map
    (fun e => (e.start_time, e.end_time))

/-- The break threshold, `Duration::minutes(10)`, in seconds. -/
def break_threshold : Int := 600

/-- The break-detection loop of `analyze_usage` over the sorted session
list: for each adjacent pair, if `current_start - prev_end` exceeds the
threshold, push the break and add its duration to the running total.
Returns `(breaks, total_break_duration)`. -/
def breaks_loop : List (Int × Int) → List (Int × Int × Int) × Int
  | (_, e1) :: (s2, e2) :: rest =>
    let acc := breaks_loop ((s2, e2) :: rest)
    let gap := s2 - e1
    if break_threshold < gap then ((e1, s2, gap) :: acc.1, gap + acc.2) else acc
  | _ => ([], 0)

/-- The session sort in `analyze_usage`: `sessions.sort_by_key(start)`,
a stable sort by session start. -/
def sortSessions (s : List (Int × Int)) : List (Int × Int) :=
  List.insertionSort (fun a b => a.1 ≤ b.1) s

/-- The body of the second loop of `analyze_usage` for one date bucket:
recompute the date's sessions from the full event list, sort them, detect
breaks, and set `breaks` and `net_active_time`. -/
def daily_pass2 (data : List UsageData) (entry : Int × DailyUsage) : Int × DailyUsage :=
  let sorted := sortSessions (sessions_for data entry.1)
  let bt := breaks_loop sorted
  (entry.1,
    { entry.2 with
      breaks := bt.1
      net_active_time := (entry.2.last_usage - entry.2.first_usage) - bt.2 })

/-- Model of `analyze_usage`: bucket events by UTC start date, compute the
per-day aggregates, then sort the buckets by date descending
(`sort_by_key(Reverse(date))`). -/
def analyze_usage (data : List UsageData) : List (Int × DailyUsage) :=
  List.insertionSort (fun a b => b.1 ≤ a.1) ((daily_pass1 data).map (daily_pass2 data))

/-- Model of `NaiveDate::weekday().num_days_from_monday()` for a day
number (day 0, 1970-01-01, was a Thursday, index 3 from Monday). -/
def days_from_monday (d : Int) : Int := Int.emod (d + 3) 7

/-- Model of the year component of `NaiveDate::from` a day number (proleptic
Gregorian civil calendar, standard era-based conversion). -/
def civil_year (z : Int) : Int :=
  let z2 := z + 719468
  let era := Int.fdiv z2 146097
  let doe := z2 - era * 146097
  let yoe := Int.fdiv (doe - Int.fdiv doe 1460 + Int.fdiv doe 36524 - Int.fdiv doe 146096) 365
  let y := yoe + era * 400
  let doy := doe - (365 * yoe + Int.fdiv yoe 4 - Int.fdiv yoe 100)
  let mp := Int.fdiv (5 * doy + 2) 153
  let m := mp + (if mp < 10 then 3 else -9)
  if m ≤ 2 then y + 1 else y

/-- Day number of a proleptic Gregorian civil date (inverse of
`civil_year`-style conversion; standard era-based formula). -/
def days_from_civil (y m d : Int) : Int :=
  let y2 := if m ≤ 2 then y - 1 else y
  let era := Int.fdiv y2 400
  let yoe := y2 - era * 400
  let mp := if 2 < m then m - 3 else m + 9
  let doy := Int.fdiv (153 * mp + 2) 5 + d - 1
  let doe := yoe * 365 + Int.fdiv yoe 4 - Int.fdiv yoe 100 + doy
  era * 146097 + doe - 719468

/-- Model of `chrono`'s `NaiveDate::iso_week().week()`: the ISO-8601 week
number of a day number, computed from the Thursday of the date's ISO week. -/
def iso_week (d : Int) : Nat :=
  let thursday := d - days_from_monday d + 3
  let y := civil_year thursday
  let jan1 := days_from_civil y 1 1
  (Int.fdiv (thursday - jan1) 7 + 1).toNat

/-- Model of the Rust struct `WeeklyUsage`. -/
structure WeeklyUsage where
  total_usage : Int
  net_active_hours : Int
  per_app_usage : List (String × Int)
  first_day : Int
  is_current_week : Bool
deriving DecidableEq

/-- Model of `WeeklyUsage::default()`. -/
def WeeklyUsage.default0 : WeeklyUsage :=
  { total_usage := 0, net_active_hours := 0, per_app_usage := [],
    first_day := 0, is_current_week := false }

/-- The per-app merge loop of `analyze_weekly_usage`:
`*weekly.per_app_usage.entry(app).or_insert(0) += time` for every entry of
the day's map. -/
def merge_app_usage (w : List (String × Int)) (u : List (String × Int)) : List (String × Int) :=
  u.foldl (fun acc kv => updAssoc acc kv.1 0 (· + kv.2)) w

/-- One step of the loop of `analyze_weekly_usage`: key the daily entry by
ISO week number, seed `first_day` (the Monday of that week) and
`is_current_week` on insertion, then accumulate totals, net active time
and the per-app map. -/
def weekly_step (currentWeek : Nat) (m : List (Nat × WeeklyUsage)) (du : Int × DailyUsage) :
    List (Nat × WeeklyUsage) :=
  let week := iso_week du.1
  updAssoc m week
    { WeeklyUsage.default0 with
      first_day := du.1 - days_from_monday du.1
      is_current_week := week == currentWeek }
    (fun w =>
      { w with
        total_usage := w.total_usage + du.2.total_usage
        net_active_hours := w.net_active_hours + du.2.net_active_time
        per_app_usage := merge_app_usage w.per_app_usage du.2.per_app_usage })

/-- Model of `analyze_weekly_usage`. `currentWeek` models
`Local::now().iso_week().week()`, read once at aggregation time; the final
sort is `sort_by_key(Reverse(week))`. -/
def analyze_weekly_usage (daily : List (Int × DailyUsage)) (currentWeek : Nat) :
    List (Nat × WeeklyUsage) :=
  List.insertionSort (fun a b => b.1 ≤ a.1) (daily.foldl (weekly_step currentWeek) [])

/-- The key codes handled by the input match of `run_tui` (`Esc`/`q` break
the loop and are not state transitions; every other key is `other`). -/
inductive NavCommand
  | left
  | right
  | up
  | down
  | other
deriving DecidableEq

/-- The mutable view state of `run_tui`: `selected_tab` (0 = Daily,
anything else = Weekly) and `selected_index`. -/
structure ViewState where
  selected_tab : Nat
  selected_index : Nat
deriving DecidableEq

/-- The initial view state of `run_tui` (`selected_tab = 0`,
`selected_index = 0`). -/
def initViewState : ViewState := ⟨0, 0⟩

/-- The length of the active tab's summary sequence, as read in the
`KeyCode::Down` arm of `run_tui` (`match selected_tab`). -/
def activeCount (D W : Nat) (s : ViewState) : Nat :=
  match s.selected_tab with
  | 0 => D
  | _ => W

/-- One iteration of the input match of `run_tui`, with `D` and `W` the
lengths of the daily and weekly analysis vectors. `Nat` subtraction makes
`len - 1` the model of `len.saturating_sub(1)` and `i - 1` of the guarded
decrement. -/
def run_tui_step (D W : Nat) (s : ViewState) (c : NavCommand) : ViewState :=
  match c with
  | .left => ⟨0, 0⟩
  | .right => ⟨1, 0⟩
  | .up => if s.selected_index > 0 then ⟨s.selected_tab, s.selected_index - 1⟩ else s
  | .down =>
    let maxIndex := activeCount D W s - 1
    if s.selected_index < maxIndex then ⟨s.selected_tab, s.selected_index + 1⟩ else s
  | .other => s

/-- The view state after a finite sequence of key events starting from the
initial state of `run_tui`. -/
def runCommands (D W : Nat) (cs : List NavCommand) : ViewState :=
  cs.foldl (run_tui_step D W) initViewState

/-- Model of `generate_entries_and_details`: the list rows (selection flag
and label) and the detail text. `fmt` models the `Display` implementation
of the value type (`format!` on the value); `list_item_name` is the label
closure passed at the call site. -/
def generate_entries_and_details {U V : Type} (analysis : List (U × V)) (selected_index : Nat)
    (fmt : V → String) (list_item_name : U → V → String) : List (Bool × String) × String :=
  let entries := analysis.enum.map (fun iv => (iv.1 == selected_index, list_item_name iv.2.1 iv.2.2))
  let detail := ((analysis[selected_index]?).map (fun kv => fmt kv.2)).getD "No data available"
  (entries, detail)

/-- The detail text drawn by `run_tui` for a view state: the
`match selected_tab` dispatch over the two `generate_entries_and_details`
call sites. -/
def render_details (daily : List (Int × DailyUsage)) (weekly : List (Nat × WeeklyUsage))
    (fmtD : DailyUsage → String) (fmtW : WeeklyUsage → String)
    (lblD : Int → DailyUsage → String) (lblW : Nat → WeeklyUsage → String)
    (s : ViewState) : String :=
  match s.selected_tab with
  | 0 => (generate_entries_and_details daily s.selected_index fmtD lblD).2
  | _ => (generate_entries_and_details weekly s.selected_index fmtW lblW).2

/-! ### Association-list lemmas -/

theorem lookupA_updAssoc_self {α β : Type} [DecidableEq α] (m : List (α × β)) (k : α)
    (dflt : β) (f : β → β) : lookupA k (updAssoc m k dflt f) = some (f (lookupD k m dflt)) := by
  induction m with
  | nil => simp [updAssoc, lookupA, lookupD]
  | cons hd tl ih =>
    obtain ⟨k1, v⟩ := hd
    by_cases h : k1 = k
    · subst h
      simp [updAssoc, lookupA, lookupD]
    · simp [updAssoc, lookupA, lookupD, h] at ih ⊢
      exact ih

theorem lookupA_updAssoc_ne {α β : Type} [DecidableEq α] (m : List (α × β)) (k k9 : α)
    (dflt : β) (f : β → β) (hne : k9 ≠ k) :
    lookupA k9 (updAssoc m k dflt f) = lookupA k9 m := by
  have hne2 : k ≠ k9 := Ne.symm hne
  induction m with
  | nil => simp [updAssoc, lookupA, hne2]
  | cons hd tl ih =>
    obtain ⟨k1, v⟩ := hd
    by_cases h : k1 = k
    · have h3 : k1 ≠ k9 := fun he => hne2 (h.symm.trans he)
      simp [updAssoc, lookupA, h, h3, hne2]
    · by_cases h2 : k1 = k9 <;> simp [updAssoc, lookupA, h, h2, ih, hne, hne2]

theorem keys_updAssoc {α β : Type} [DecidableEq α] (m : List (α × β)) (k : α)
    (dflt : β) (f : β → β) :
    (updAssoc m k dflt f).map Prod.fst = m.map Prod.fst ∨
      (updAssoc m k dflt f).map Prod.fst = m.map Prod.fst ++ [k] := by
  induction m with
  | nil => simp [updAssoc]
  | cons hd tl ih =>
    obtain ⟨k1, v⟩ := hd
    by_cases h : k1 = k
    · subst h
      left
      simp [updAssoc]
    · rcases ih with ih | ih <;> [left; right] <;> simp [updAssoc, h, ih]

theorem mem_keys_updAssoc {α β : Type} [DecidableEq α] (m : List (α × β)) (k a : α)
    (dflt : β) (f : β → β) :
    a ∈ (updAssoc m k dflt f).map Prod.fst ↔ a ∈ m.map Prod.fst ∨ a = k := by
  induction m with
  | nil => simp [updAssoc]
  | cons hd tl ih =>
    obtain ⟨k1, v⟩ := hd
    by_cases h : k1 = k
    · subst h
      simp [updAssoc]
      tauto
    · simp [updAssoc, h, ih]
      tauto

theorem nodup_keys_updAssoc {α β : Type} [DecidableEq α] (m : List (α × β)) (k : α)
    (dflt : β) (f : β → β) (hnd : (m.map Prod.fst).Nodup) :
    ((updAssoc m k dflt f).map Prod.fst).Nodup := by
  induction m with
  | nil => simp [updAssoc]
  | cons hd tl ih =>
    obtain ⟨k1, v⟩ := hd
    rw [List.map_cons, List.nodup_cons] at hnd
    by_cases h : k1 = k
    · have he : updAssoc ((k1, v) :: tl) k dflt f = (k1, f v) :: tl := by
        simp [updAssoc, h]
      rw [he, List.map_cons, List.nodup_cons]
      exact hnd
    · have he : updAssoc ((k1, v) :: tl) k dflt f = (k1, v) :: updAssoc tl k dflt f := by
        simp [updAssoc, h]
      rw [he, List.map_cons, List.nodup_cons]
      refine ⟨?_, ih hnd.2⟩
      intro hmem
      rw [mem_keys_updAssoc] at hmem
      rcases hmem with hmem | hmem
      · exact hnd.1 hmem
      · exact h hmem

theorem forall_mem_updAssoc {α β : Type} [DecidableEq α] {m : List (α × β)} {k : α}
    {dflt : β} {f : β → β} {P : α × β → Prop}
    (hm : ∀ x ∈ m, P x) (hnew : P (k, f dflt)) (hupd : ∀ v, (k, v) ∈ m → P (k, f v)) :
    ∀ x ∈ updAssoc m k dflt f, P x := by
  induction m with
  | nil =>
    intro x hx
    simp [updAssoc] at hx
    exact hx ▸ hnew
  | cons hd tl ih =>
    obtain ⟨k1, v⟩ := hd
    intro x hx
    by_cases h : k1 = k
    · subst h
      simp [updAssoc] at hx
      rcases hx with hx | hx
      · exact hx ▸ hupd v (by simp)
      · exact hm x (by simp [hx])
    · simp [updAssoc, h] at hx
      rcases hx with hx | hx
      · exact hm x (by simp [hx])
      · exact ih (fun y hy => hm y (by simp [hy])) (fun w hw => hupd w (by simp [hw])) x hx

theorem sumValues_updAssoc {α : Type} [DecidableEq α] (m : List (α × Int)) (k : α) (c : Int) :
    sumValues (updAssoc m k 0 (· + c)) = sumValues m + c := by
  induction m with
  | nil => simp [updAssoc, sumValues]
  | cons hd tl ih =>
    obtain ⟨k1, v⟩ := hd
    by_cases h : k1 = k
    · subst h
      simp [updAssoc, sumValues]
      ring
    · simp [updAssoc, sumValues, h] at ih ⊢
      omega

theorem lookupA_eq_none_iff {α β : Type} [DecidableEq α] (m : List (α × β)) (k : α) :
    lookupA k m = none ↔ k ∉ m.map Prod.fst := by
  induction m with
  | nil => simp [lookupA]
  | cons hd tl ih =>
    obtain ⟨k1, v⟩ := hd
    by_cases h : k1 = k
    · simp [lookupA, h]
    · simp [lookupA, h, ih, Ne.symm h]

theorem lookupA_of_mem_nodup {α β : Type} [DecidableEq α] {m : List (α × β)} {k : α} {v : β}
    (hnd : (m.map Prod.fst).Nodup) (hmem : (k, v) ∈ m) : lookupA k m = some v := by
  induction m with
  | nil => simp at hmem
  | cons hd tl ih =>
    obtain ⟨k1, w⟩ := hd
    rw [List.map_cons, List.nodup_cons] at hnd
    rcases List.mem_cons.mp hmem with h1 | h1
    · obtain ⟨rfl, rfl⟩ := Prod.mk.injEq .. ▸ h1
      simp [lookupA]
    · have hk : k ∈ tl.map Prod.fst := List.mem_map.mpr ⟨(k, v), h1, rfl⟩
      have hne : k1 ≠ k := fun he => hnd.1 (he ▸ hk)
      show (if k1 = k then some w else lookupA k tl) = some v
      rw [if_neg hne]
      exact ih hnd.2 h1

theorem mem_of_lookupA {α β : Type} [DecidableEq α] {m : List (α × β)} {k : α} {v : β}
    (h : lookupA k m = some v) : (k, v) ∈ m := by
  induction m with
  | nil => simp [lookupA] at h
  | cons hd tl ih =>
    obtain ⟨k1, w⟩ := hd
    by_cases h1 : k1 = k
    · subst h1
      simp [lookupA] at h
      simp [h]
    · simp [lookupA, h1] at h
      simp [ih h]

/-! ### Break-detection lemmas -/

theorem breaks_loop_total_eq_sum (l : List (Int × Int)) :
    (breaks_loop l).2 = ((breaks_loop l).1.map (fun b => b.2.2)).sum := by
  induction l with
  | nil => simp [breaks_loop]
  | cons p1 rest ih =>
    cases rest with
    | nil => simp [breaks_loop]
    | cons p2 rest2 =>
      obtain ⟨s1, e1⟩ := p1
      obtain ⟨s2, e2⟩ := p2
      by_cases h : break_threshold < s2 - e1 <;> simp [breaks_loop, h, ih]

theorem breaks_loop_gap (l : List (Int × Int)) :
    ∀ b ∈ (breaks_loop l).1, break_threshold < b.2.2 ∧ b.2.2 = b.2.1 - b.1 := by
  induction l with
  | nil => simp [breaks_loop]
  | cons p1 rest ih =>
    cases rest with
    | nil => simp [breaks_loop]
    | cons p2 rest2 =>
      obtain ⟨s1, e1⟩ := p1
      obtain ⟨s2, e2⟩ := p2
      intro b hb
      by_cases h : break_threshold < s2 - e1
      · simp [breaks_loop, h] at hb
        rcases hb with hb | hb
        · subst hb
          exact ⟨h, rfl⟩
        · exact ih b hb
      · simp [breaks_loop, h] at hb
        exact ih b hb

theorem breaks_loop_start_lb (s e : Int) (rest : List (Int × Int))
    (hsort : List.Pairwise (fun a b : Int × Int => a.1 ≤ b.1) ((s, e) :: rest))
    (hwf : ∀ p ∈ (s, e) :: rest, p.1 ≤ p.2) :
    ∀ b ∈ (breaks_loop ((s, e) :: rest)).1, s ≤ b.1 := by
  induction rest generalizing s e with
  | nil => simp [breaks_loop]
  | cons p2 rest2 ih =>
    obtain ⟨s2, e2⟩ := p2
    intro b hb
    have hs12 : s ≤ s2 := (List.pairwise_cons.mp hsort).1 (s2, e2) (by simp)
    have hse : s ≤ e := hwf (s, e) (by simp)
    have htail : ∀ b ∈ (breaks_loop ((s2, e2) :: rest2)).1, s2 ≤ b.1 :=
      ih s2 e2 (List.pairwise_cons.mp hsort).2 (fun p hp => hwf p (by simp [hp]))
    by_cases h : break_threshold < s2 - e
    · simp [breaks_loop, h] at hb
      rcases hb with hb | hb
      · rw [hb]
        exact hse
      · exact le_trans hs12 (htail b hb)
    · simp [breaks_loop, h] at hb
      exact le_trans hs12 (htail b hb)

theorem breaks_loop_pairwise (l : List (Int × Int))
    (hsort : List.Pairwise (fun a b : Int × Int => a.1 ≤ b.1) l)
    (hwf : ∀ p ∈ l, p.1 ≤ p.2) :
    List.Pairwise (fun b1 b2 : Int × Int × Int => b1.2.1 ≤ b2.1) (breaks_loop l).1 := by
  induction l with
  | nil => simp [breaks_loop]
  | cons p1 rest ih =>
    cases rest with
    | nil => simp [breaks_loop]
    | cons p2 rest2 =>
      obtain ⟨s1, e1⟩ := p1
      obtain ⟨s2, e2⟩ := p2
      have hsort2 : List.Pairwise (fun a b : Int × Int => a.1 ≤ b.1) ((s2, e2) :: rest2) :=
        (List.pairwise_cons.mp hsort).2
      have hwf2 : ∀ p ∈ (s2, e2) :: rest2, p.1 ≤ p.2 := fun p hp => hwf p (by simp [hp])
      have htail := ih hsort2 hwf2
      by_cases h : break_threshold < s2 - e1
      · have he : (breaks_loop ((s1, e1) :: (s2, e2) :: rest2)).1 =
            (e1, s2, s2 - e1) :: (breaks_loop ((s2, e2) :: rest2)).1 := by
          simp [breaks_loop, h]
        rw [he, List.pairwise_cons]
        refine ⟨?_, htail⟩
        intro b hb
        exact breaks_loop_start_lb s2 e2 rest2 hsort2 hwf2 b hb
      · have he : (breaks_loop ((s1, e1) :: (s2, e2) :: rest2)).1 =
            (breaks_loop ((s2, e2) :: rest2)).1 := by
          simp [breaks_loop, h]
        rw [he]
        exact htail

/-- The filter characterization of the break loop: over the adjacent pairs
of the sorted session list, exactly the pairs whose gap strictly exceeds
the threshold produce a break, recorded as
`(previous end, next start, gap)`. -/
def pair_breaks (l : List (Int × Int)) : List (Int × Int × Int) :=
  (l.zip l.tail).filterMap (fun pq =>
    if break_threshold < pq.2.1 - pq.1.2 then some (pq.1.2, pq.2.1, pq.2.1 - pq.1.2) else none)

theorem breaks_loop_eq_pair_breaks (l : List (Int × Int)) :
    (breaks_loop l).1 = pair_breaks l := by
  induction l with
  | nil => simp [breaks_loop, pair_breaks]
  | cons p1 rest ih =>
    cases rest with
    | nil => simp [breaks_loop, pair_breaks]
    | cons p2 rest2 =>
      obtain ⟨s1, e1⟩ := p1
      obtain ⟨s2, e2⟩ := p2
      by_cases h : break_threshold < s2 - e1 <;>
        simp [breaks_loop, pair_breaks, h] <;>
        simpa [pair_breaks] using ih

/-! ### Sort-relation instances and sorted-output facts -/

instance sessionLeTotal : IsTotal (Int × Int) (fun a b => a.1 ≤ b.1) :=
  ⟨fun a b => Int.le_total a.1 b.1⟩

instance sessionLeTrans : IsTrans (Int × Int) (fun a b => a.1 ≤ b.1) :=
  ⟨fun _ _ _ h1 h2 => le_trans h1 h2⟩

instance dailyRevTotal : IsTotal (Int × DailyUsage) (fun a b => b.1 ≤ a.1) :=
  ⟨fun a b => Int.le_total b.1 a.1⟩

instance dailyRevTrans : IsTrans (Int × DailyUsage) (fun a b => b.1 ≤ a.1) :=
  ⟨fun _ _ _ h1 h2 => le_trans h2 h1⟩

instance weeklyRevTotal : IsTotal (Nat × WeeklyUsage) (fun a b => b.1 ≤ a.1) :=
  ⟨fun a b => Nat.le_total b.1 a.1⟩

instance weeklyRevTrans : IsTrans (Nat × WeeklyUsage) (fun a b => b.1 ≤ a.1) :=
  ⟨fun _ _ _ h1 h2 => le_trans h2 h1⟩

theorem sortSessions_perm (l : List (Int × Int)) : (sortSessions l).Perm l :=
  List.perm_insertionSort _ l

theorem sortSessions_sorted (l : List (Int × Int)) :
    List.Pairwise (fun a b : Int × Int => a.1 ≤ b.1) (sortSessions l) :=
  List.sorted_insertionSort _ l

theorem mem_analyze_iff (data : List UsageData) (d : Int) (u : DailyUsage) :
    (d, u) ∈ analyze_usage data ↔
      ∃ u0, (d, u0) ∈ daily_pass1 data ∧ u = (daily_pass2 data (d, u0)).2 := by
  constructor
  · intro hmem
    have h1 : (d, u) ∈ (daily_pass1 data).map (daily_pass2 data) :=
      (List.perm_insertionSort _ _).mem_iff.mp hmem
    obtain ⟨x, hx, he⟩ := List.mem_map.mp h1
    obtain ⟨d0, u0⟩ := x
    have hd : d0 = d := by
      have : (daily_pass2 data (d0, u0)).1 = d := by rw [he]
      simpa [daily_pass2] using this
    subst hd
    exact ⟨u0, hx, by rw [he]⟩
  · rintro ⟨u0, hmem, rfl⟩
    have h1 : (daily_pass2 data (d, u0)) ∈ (daily_pass1 data).map (daily_pass2 data) :=
      List.mem_map.mpr ⟨(d, u0), hmem, rfl⟩
    have h2 : daily_pass2 data (d, u0) = (d, (daily_pass2 data (d, u0)).2) := rfl
    exact (List.perm_insertionSort _ _).mem_iff.mpr (h2 ▸ h1)

theorem analyze_breaks_eq (data : List UsageData) (d : Int) (u : DailyUsage)
    (hmem : (d, u) ∈ analyze_usage data) :
    u.breaks = (breaks_loop (sortSessions (sessions_for data d))).1 := by
  obtain ⟨u0, _, rfl⟩ := (mem_analyze_iff data d u).mp hmem
  rfl

theorem analyze_net_eq (data : List UsageData) (d : Int) (u : DailyUsage)
    (hmem : (d, u) ∈ analyze_usage data) :
    u.net_active_time =
      (u.last_usage - u.first_usage) - (breaks_loop (sortSessions (sessions_for data d))).2 := by
  obtain ⟨u0, _, rfl⟩ := (mem_analyze_iff data d u).mp hmem
  rfl

theorem sessions_wf (data : List UsageData) (d : Int)
    (h : ∀ e ∈ data, e.start_time ≤ e.end_time) :
    ∀ p ∈ sortSessions (sessions_for data d), p.1 ≤ p.2 := by
  intro p hp
  have hp2 : p ∈ sessions_for data d := (sortSessions_perm _).mem_iff.mp hp
  obtain ⟨e, he, hpe⟩ := List.mem_map.mp hp2
  rw [← hpe]
  exact h e (List.mem_of_mem_filter he)

/-- C2: for every day in the daily aggregator's output, `net_active_time`
equals `(last_usage - first_usage)` minus the sum of that day's recorded
break durations, exactly. The statement is an exact equation over `Int`,
so the value is not clamped and may be negative. -/
theorem daily_net_active_time_eq (data : List UsageData) (d : Int) (u : DailyUsage)
    (hmem : (d, u) ∈ analyze_usage data) :
    u.net_active_time = (u.last_usage - u.first_usage) - (u.breaks.map (fun b => b.2.2)).sum := by
  rw [analyze_net_eq data d u hmem, breaks_loop_total_eq_sum,
    ← analyze_breaks_eq data d u hmem]

/-- Witness for C2 at the spec scenario (Browser 09:00-09:30, Editor
09:45-10:00): one 15-minute break, net active time 45 minutes. -/
theorem daily_net_active_time_eq_witness :
    ((0 : Int),
      ({ total_usage := 2700, first_usage := 32400, last_usage := 36000,
         per_app_usage := [("Browser", 1800), ("Editor", 900)],
         breaks := [(34200, 35100, 900)], net_active_time := 2700 } : DailyUsage)) ∈
        analyze_usage [⟨"Browser", 1800, 32400, 34200⟩, ⟨"Editor", 900, 35100, 36000⟩] ∧
      (2700 : Int) = (36000 - 32400) - ([((34200 : Int), (35100 : Int), (900 : Int))].map
        (fun b => b.2.2)).sum :=
  ⟨by decide,
    daily_net_active_time_eq
      [⟨"Browser", 1800, 32400, 34200⟩, ⟨"Editor", 900, 35100, 36000⟩] 0
      { total_usage := 2700, first_usage := 32400, last_usage := 36000,
        per_app_usage := [("Browser", 1800), ("Editor", 900)],
        breaks := [(34200, 35100, 900)], net_active_time := 2700 }
      (by decide)⟩

/-- C3 (amended): for every day of the output, unconditionally — for any
input, well-formed or not — every recorded break's duration strictly
exceeds the 10-minute threshold and every break's start is strictly
below its end; and when every event has `end_time ≥ start_time`, the
day's breaks sequence is moreover time-ordered and pairwise
non-overlapping (each break's end is at most the next break's start). -/
theorem daily_breaks_ordered (data : List UsageData) (d : Int) (u : DailyUsage)
    (hmem : (d, u) ∈ analyze_usage data) :
    (∀ b ∈ u.breaks, b.1 < b.2.1 ∧ break_threshold < b.2.2) ∧
      ((∀ e ∈ data, e.start_time ≤ e.end_time) →
        List.Pairwise (fun b1 b2 : Int × Int × Int => b1.2.1 ≤ b2.1) u.breaks) := by
  rw [analyze_breaks_eq data d u hmem]
  constructor
  · intro b hb
    obtain ⟨h1, h2⟩ := breaks_loop_gap _ b hb
    have h3 : (600 : Int) < b.2.2 := by
      simpa [break_threshold] using h1
    exact ⟨by omega, h1⟩
  · intro hwf
    exact breaks_loop_pairwise _ (sortSessions_sorted _) (sessions_wf data d hwf)

/-- Witness for C3 at the spec scenario input: the membership and
well-formedness hypotheses are discharged at the concrete event list and
both conclusions are instantiated. -/
theorem daily_breaks_ordered_witness :
    ((0 : Int),
      ({ total_usage := 2700, first_usage := 32400, last_usage := 36000,
         per_app_usage := [("Browser", 1800), ("Editor", 900)],
         breaks := [(34200, 35100, 900)], net_active_time := 2700 } : DailyUsage)) ∈
        analyze_usage [⟨"Browser", 1800, 32400, 34200⟩, ⟨"Editor", 900, 35100, 36000⟩] ∧
      (∀ b ∈ [((34200 : Int), (35100 : Int), (900 : Int))],
        b.1 < b.2.1 ∧ break_threshold < b.2.2) ∧
      List.Pairwise (fun b1 b2 : Int × Int × Int => b1.2.1 ≤ b2.1)
        [((34200 : Int), (35100 : Int), (900 : Int))] := by
  have h := daily_breaks_ordered
    [⟨"Browser", 1800, 32400, 34200⟩, ⟨"Editor", 900, 35100, 36000⟩] 0
    { total_usage := 2700, first_usage := 32400, last_usage := 36000,
      per_app_usage := [("Browser", 1800), ("Editor", 900)],
      breaks := [(34200, 35100, 900)], net_active_time := 2700 }
    (by decide)
  exact ⟨by decide, h.1, h.2 (by decide)⟩

/-- Counterexample to C3 as stated: with an event of negative duration
(`end_time < start_time`, which the data model admits as a data-quality
edge case), the recorded breaks of a day can overlap: the input below
yields breaks `(0, 2000)` and `(0, 4000)`, and the first break's end
exceeds the second break's start. -/
theorem daily_breaks_ordered_counterexample :
    ∃ du ∈ analyze_usage
        [⟨"a", 0, 0, 0⟩, ⟨"a", -2000, 2000, 0⟩, ⟨"a", 1000, 4000, 5000⟩],
      ¬ List.Pairwise (fun b1 b2 : Int × Int × Int => b1.2.1 ≤ b2.1) du.2.breaks := by
  decide

/-- C4: for every day bucket, the recorded breaks are exactly the adjacent
pairs of the day's sessions sorted by start time whose gap
`next start - previous end` strictly exceeds the 10-minute threshold, each
recorded as `(previous end, next start, gap)`; a pair with a zero or
negative gap (overlapping sessions) produces no break and no error. -/
theorem daily_breaks_filter_eq (data : List UsageData) (d : Int) (u : DailyUsage)
    (hmem : (d, u) ∈ analyze_usage data) :
    u.breaks = pair_breaks (sortSessions (sessions_for data d)) :=
  (analyze_breaks_eq data d u hmem).trans (breaks_loop_eq_pair_breaks _)

/-- Witness for C4 at the spec scenario input. -/
theorem daily_breaks_filter_eq_witness :
    ((0 : Int),
      ({ total_usage := 2700, first_usage := 32400, last_usage := 36000,
         per_app_usage := [("Browser", 1800), ("Editor", 900)],
         breaks := [(34200, 35100, 900)], net_active_time := 2700 } : DailyUsage)) ∈
        analyze_usage [⟨"Browser", 1800, 32400, 34200⟩, ⟨"Editor", 900, 35100, 36000⟩] ∧
      [((34200 : Int), (35100 : Int), (900 : Int))] =
        pair_breaks (sortSessions (sessions_for
          [⟨"Browser", 1800, 32400, 34200⟩, ⟨"Editor", 900, 35100, 36000⟩] 0)) :=
  ⟨by decide,
    daily_breaks_filter_eq
      [⟨"Browser", 1800, 32400, 34200⟩, ⟨"Editor", 900, 35100, 36000⟩] 0
      { total_usage := 2700, first_usage := 32400, last_usage := 36000,
        per_app_usage := [("Browser", 1800), ("Editor", 900)],
        breaks := [(34200, 35100, 900)], net_active_time := 2700 }
      (by decide)⟩

/-! ### View-state invariant -/

theorem view_inv_step (D W : Nat) (s : ViewState) (c : NavCommand)
    (h : s.selected_index < max (activeCount D W s) 1) :
    (run_tui_step D W s c).selected_index < max (activeCount D W (run_tui_step D W s c)) 1 := by
  cases c with
  | left => simp [run_tui_step, activeCount]
  | right => simp [run_tui_step, activeCount]
  | up =>
    by_cases hz : s.selected_index > 0
    · have ht : activeCount D W (⟨s.selected_tab, s.selected_index - 1⟩ : ViewState) =
          activeCount D W s := rfl
      simp [run_tui_step, hz, ht]
      omega
    · simpa [run_tui_step, hz] using h
  | down =>
    by_cases hz : s.selected_index < activeCount D W s - 1
    · have ht : activeCount D W (⟨s.selected_tab, s.selected_index + 1⟩ : ViewState) =
          activeCount D W s := rfl
      simp [run_tui_step, hz, ht]
      omega
    · simpa [run_tui_step, hz] using h
  | other => simpa [run_tui_step] using h

theorem view_inv_runCommands (D W : Nat) (cs : List NavCommand) :
    (runCommands D W cs).selected_index < max (activeCount D W (runCommands D W cs)) 1 := by
  have hgen : ∀ (l : List NavCommand) (s : ViewState),
      s.selected_index < max (activeCount D W s) 1 →
      (l.foldl (run_tui_step D W) s).selected_index <
        max (activeCount D W (l.foldl (run_tui_step D W) s)) 1 := by
    intro l
    induction l with
    | nil => intro s h; simpa using h
    | cons c rest ih =>
      intro s h
      exact ih (run_tui_step D W s c) (view_inv_step D W s c h)
  exact hgen cs initViewState (by simp [initViewState, activeCount])

/-- C7: starting from the initial view state (Daily tab, index 0), after
any finite sequence of navigation commands the selected index is a valid
index into the active tab's summary sequence (it is below the active
count when that count is positive, and equal to 0 when the active
sequence is empty); in particular MoveUp and MoveDown on an empty active
sequence leave the index at 0. All transitions are total functions, so no
step can fail. -/
theorem view_selected_index_valid (D W : Nat) (cs : List NavCommand) :
    (activeCount D W (runCommands D W cs) = 0 → (runCommands D W cs).selected_index = 0) ∧
      (0 < activeCount D W (runCommands D W cs) →
        (runCommands D W cs).selected_index < activeCount D W (runCommands D W cs)) ∧
      (activeCount D W (runCommands D W cs) = 0 →
        (run_tui_step D W (runCommands D W cs) NavCommand.up).selected_index = 0 ∧
          (run_tui_step D W (runCommands D W cs) NavCommand.down).selected_index = 0) := by
  have hinv := view_inv_runCommands D W cs
  refine ⟨fun h0 => by omega, fun hpos => by omega, fun h0 => ?_⟩
  have hi : (runCommands D W cs).selected_index = 0 := by omega
  constructor
  · simp [run_tui_step, hi]
  · simp [run_tui_step, hi, h0]

/-- Witness for C7: on the weekly tab with two weekly rows, two MoveDown
presses select index 1, a valid index. -/
theorem view_selected_index_valid_witness :
    0 < activeCount 0 2 (runCommands 0 2 [NavCommand.right, NavCommand.down]) ∧
      (runCommands 0 2 [NavCommand.right, NavCommand.down]).selected_index <
        activeCount 0 2 (runCommands 0 2 [NavCommand.right, NavCommand.down]) :=
  ⟨by decide,
    (view_selected_index_valid 0 2 [NavCommand.right, NavCommand.down]).2.1 (by decide)⟩

theorem render_details_tab0 (daily : List (Int × DailyUsage))
    (weekly : List (Nat × WeeklyUsage)) (fmtD : DailyUsage → String)
    (fmtW : WeeklyUsage → String) (lblD : Int → DailyUsage → String)
    (lblW : Nat → WeeklyUsage → String) (s : ViewState) (h : s.selected_tab = 0) :
    render_details daily weekly fmtD fmtW lblD lblW s =
      (generate_entries_and_details daily s.selected_index fmtD lblD).2 := by
  obtain ⟨t, i⟩ := s
  cases t with
  | zero => rfl
  | succ n => simp at h

theorem render_details_tabn (daily : List (Int × DailyUsage))
    (weekly : List (Nat × WeeklyUsage)) (fmtD : DailyUsage → String)
    (fmtW : WeeklyUsage → String) (lblD : Int → DailyUsage → String)
    (lblW : Nat → WeeklyUsage → String) (s : ViewState) (h : s.selected_tab ≠ 0) :
    render_details daily weekly fmtD fmtW lblD lblW s =
      (generate_entries_and_details weekly s.selected_index fmtW lblW).2 := by
  obtain ⟨t, i⟩ := s
  cases t with
  | zero => exact absurd rfl h
  | succ n => rfl

theorem activeCount_tab0 (D W : Nat) (s : ViewState) (h : s.selected_tab = 0) :
    activeCount D W s = D := by
  obtain ⟨t, i⟩ := s
  cases t with
  | zero => rfl
  | succ n => simp at h

theorem activeCount_tabn (D W : Nat) (s : ViewState) (h : s.selected_tab ≠ 0) :
    activeCount D W s = W := by
  obtain ⟨t, i⟩ := s
  cases t with
  | zero => exact absurd rfl h
  | succ n => rfl

theorem generate_details_eq {U V : Type} (analysis : List (U × V)) (i : Nat)
    (fmt : V → String) (lbl : U → V → String) :
    (generate_entries_and_details analysis i fmt lbl).2 =
      ((analysis[i]?).map (fun kv => fmt kv.2)).getD "No data available" := rfl

/-- C8: in every view state reachable from the initial state, the detail
text is the formatted summary (`fmt` models the `Display` rendering) of
the row at the selected index of the active tab's sequence, and when the
active sequence is empty it is the placeholder `"No data available"`;
both cases are produced by a total function, so no lookup can fail. -/
theorem render_details_selected (daily : List (Int × DailyUsage))
    (weekly : List (Nat × WeeklyUsage)) (fmtD : DailyUsage → String)
    (fmtW : WeeklyUsage → String) (lblD : Int → DailyUsage → String)
    (lblW : Nat → WeeklyUsage → String) (cs : List NavCommand) :
    ((runCommands daily.length weekly.length cs).selected_tab = 0 →
      (daily = [] →
        render_details daily weekly fmtD fmtW lblD lblW
          (runCommands daily.length weekly.length cs) = "No data available") ∧
      (daily ≠ [] → ∃ kv, daily[(runCommands daily.length weekly.length cs).selected_index]? =
          some kv ∧
        render_details daily weekly fmtD fmtW lblD lblW
          (runCommands daily.length weekly.length cs) = fmtD kv.2)) ∧
    ((runCommands daily.length weekly.length cs).selected_tab ≠ 0 →
      (weekly = [] →
        render_details daily weekly fmtD fmtW lblD lblW
          (runCommands daily.length weekly.length cs) = "No data available") ∧
      (weekly ≠ [] → ∃ kv, weekly[(runCommands daily.length weekly.length cs).selected_index]? =
          some kv ∧
        render_details daily weekly fmtD fmtW lblD lblW
          (runCommands daily.length weekly.length cs) = fmtW kv.2)) := by
  have hinv := view_inv_runCommands daily.length weekly.length cs
  set s := runCommands daily.length weekly.length cs with hs
  constructor
  · intro htab
    rw [render_details_tab0 daily weekly fmtD fmtW lblD lblW s htab, generate_details_eq]
    rw [activeCount_tab0 daily.length weekly.length s htab] at hinv
    constructor
    · intro hde
      subst hde
      simp
    · intro hne
      have hlen : 0 < daily.length := List.length_pos.mpr hne
      have hlt : s.selected_index < daily.length := by omega
      exact ⟨daily[s.selected_index], List.getElem?_eq_getElem hlt,
        by rw [List.getElem?_eq_getElem hlt]; rfl⟩
  · intro htab
    rw [render_details_tabn daily weekly fmtD fmtW lblD lblW s htab, generate_details_eq]
    rw [activeCount_tabn daily.length weekly.length s htab] at hinv
    constructor
    · intro hde
      subst hde
      simp
    · intro hne
      have hlen : 0 < weekly.length := List.length_pos.mpr hne
      have hlt : s.selected_index < weekly.length := by omega
      exact ⟨weekly[s.selected_index], List.getElem?_eq_getElem hlt,
        by rw [List.getElem?_eq_getElem hlt]; rfl⟩

/-- Witness for C8: with one daily row, the initial state renders the
formatted summary of that row; with the row list empty, it renders the
placeholder. -/
theorem render_details_selected_witness :
    ([((0 : Int), DailyUsage.default0)] ≠ []) ∧
      ∃ kv, [((0 : Int), DailyUsage.default0)][(runCommands 1 0 []).selected_index]? = some kv ∧
        render_details [((0 : Int), DailyUsage.default0)] [] (fun _ => "summary")
          (fun _ => "weekly") (fun _ _ => "lbl") (fun _ _ => "lbl") (runCommands 1 0 []) =
          "summary" :=
  ⟨by decide,
    (render_details_selected [((0 : Int), DailyUsage.default0)] [] (fun _ => "summary")
      (fun _ => "weekly") (fun _ _ => "lbl") (fun _ _ => "lbl") []).1 (by decide)
      |>.2 (by decide)⟩

/-! ### Generic invariant of the first aggregation loop -/

theorem foldl_daily_step_inv {P : Int × DailyUsage → Prop}
    (hnew : ∀ e : UsageData, P (date_naive e.start_time, apply_event (daily_insert_default e) e))
    (hupd : ∀ (e : UsageData) (v : DailyUsage),
      P (date_naive e.start_time, v) → P (date_naive e.start_time, apply_event v e)) :
    ∀ (l : List UsageData) (m : List (Int × DailyUsage)),
      (∀ x ∈ m, P x) → ∀ x ∈ l.foldl daily_step m, P x := by
  intro l
  induction l with
  | nil => intro m hm; simpa using hm
  | cons e rest ih =>
    intro m hm
    rw [List.foldl_cons]
    refine ih (daily_step m e) ?_
    exact forall_mem_updAssoc hm (hnew e) (fun v hv => hupd e v (hm _ hv))

theorem pass1_total_eq_sum (data : List UsageData) :
    ∀ x ∈ daily_pass1 data, x.2.total_usage = sumValues x.2.per_app_usage := by
  refine foldl_daily_step_inv ?_ ?_ data [] (by simp)
  · intro e
    simp [apply_event, daily_insert_default, DailyUsage.default0, sumValues_updAssoc, sumValues,
      updAssoc]
  · intro e v hv
    simp only [apply_event, sumValues_updAssoc]
    simp at hv
    omega

/-- C5: for every day in the daily aggregator's output, `total_usage`
equals the sum of the values of `per_app_usage`. -/
theorem daily_total_eq_sum_per_app (data : List UsageData) (d : Int) (u : DailyUsage)
    (hmem : (d, u) ∈ analyze_usage data) :
    u.total_usage = sumValues u.per_app_usage := by
  obtain ⟨u0, h0, rfl⟩ := (mem_analyze_iff data d u).mp hmem
  exact pass1_total_eq_sum data (d, u0) h0

/-- Witness for C5 at the spec scenario input. -/
theorem daily_total_eq_sum_per_app_witness :
    ((0 : Int),
      ({ total_usage := 2700, first_usage := 32400, last_usage := 36000,
         per_app_usage := [("Browser", 1800), ("Editor", 900)],
         breaks := [(34200, 35100, 900)], net_active_time := 2700 } : DailyUsage)) ∈
        analyze_usage [⟨"Browser", 1800, 32400, 34200⟩, ⟨"Editor", 900, 35100, 36000⟩] ∧
      (2700 : Int) = sumValues [("Browser", (1800 : Int)), ("Editor", 900)] :=
  ⟨by decide,
    daily_total_eq_sum_per_app
      [⟨"Browser", 1800, 32400, 34200⟩, ⟨"Editor", 900, 35100, 36000⟩] 0
      { total_usage := 2700, first_usage := 32400, last_usage := 36000,
        per_app_usage := [("Browser", 1800), ("Editor", 900)],
        breaks := [(34200, 35100, 900)], net_active_time := 2700 }
      (by decide)⟩

/-! ### Full characterization of the day buckets -/

theorem lookupD_updAssoc_add {α : Type} [DecidableEq α] (m : List (α × Int)) (k a : α)
    (c : Int) :
    lookupD a (updAssoc m k 0 (· + c)) 0 = lookupD a m 0 + (if a = k then c else 0) := by
  by_cases h : a = k
  · subst h
    rw [lookupD, lookupA_updAssoc_self, if_pos rfl]
    rfl
  · rw [lookupD, lookupA_updAssoc_ne m k a 0 _ h, if_neg h, Int.add_zero]
    rfl

/-- The events of `l` whose UTC start date is `d`, in input order (the
session-collection filter of `analyze_usage`, kept as events). -/
def eventsOn (l : List UsageData) (d : Int) : List UsageData :=
  l.filter (fun e => date_naive e.start_time = d)

theorem eventsOn_append_one (pre : List UsageData) (e : UsageData) (d : Int) :
    eventsOn (pre ++ [e]) d =
      eventsOn pre d ++ (if date_naive e.start_time = d then [e] else []) := by
  by_cases h : date_naive e.start_time = d <;> simp [eventsOn, List.filter_append, h]

theorem sessions_for_eq_eventsOn (data : List UsageData) (d : Int) :
    sessions_for data d = (eventsOn data d).map (fun e => (e.start_time, e.end_time)) := rfl

/-- Everything the first loop of `analyze_usage` establishes about the
bucket of date `d` after having processed the events `l`: the bucket is
inhabited, `total_usage` is the sum of the bucket's usages, the per-app
map has no duplicate keys and holds the per-app usage sums, and
`first_usage`/`last_usage` are the minimum start and maximum end of the
bucket's events. -/
structure DailyChar (l : List UsageData) (d : Int) (u : DailyUsage) : Prop where
  nonempty : eventsOn l d ≠ []
  total_eq : u.total_usage = ((eventsOn l d).map (fun e => e.usage)).sum
  keys_nodup : (u.per_app_usage.map Prod.fst).Nodup
  app_eq : ∀ a : String, lookupD a u.per_app_usage 0 =
    (((eventsOn l d).filter (fun e => e.app = a)).map (fun e => e.usage)).sum
  first_mem : u.first_usage ∈ (eventsOn l d).map (fun e => e.start_time)
  first_le : ∀ t ∈ (eventsOn l d).map (fun e => e.start_time), u.first_usage ≤ t
  last_mem : u.last_usage ∈ (eventsOn l d).map (fun e => e.end_time)
  last_ge : ∀ t ∈ (eventsOn l d).map (fun e => e.end_time), t ≤ u.last_usage

/-- The invariant of the first loop of `analyze_usage`: the accumulator
map has no duplicate date keys, absent dates have no events among the
processed prefix, and present dates are fully characterized. -/
def Pass1Inv (pre : List UsageData) (m : List (Int × DailyUsage)) : Prop :=
  (m.map Prod.fst).Nodup ∧
    (∀ d : Int, lookupA d m = none → eventsOn pre d = []) ∧
    (∀ (d : Int) (u : DailyUsage), lookupA d m = some u → DailyChar pre d u)

theorem dailyChar_append_other {pre : List UsageData} {e : UsageData} {d : Int}
    {u : DailyUsage} (hne : date_naive e.start_time ≠ d) (hc : DailyChar pre d u) :
    DailyChar (pre ++ [e]) d u := by
  have he : eventsOn (pre ++ [e]) d = eventsOn pre d := by
    rw [eventsOn_append_one, if_neg hne, List.append_nil]
  exact ⟨he ▸ hc.nonempty, he ▸ hc.total_eq, hc.keys_nodup, fun a => he ▸ hc.app_eq a,
    he ▸ hc.first_mem, he ▸ hc.first_le, he ▸ hc.last_mem, he ▸ hc.last_ge⟩

theorem dailyChar_new {pre : List UsageData} {e : UsageData}
    (hnone : eventsOn pre (date_naive e.start_time) = []) :
    DailyChar (pre ++ [e]) (date_naive e.start_time)
      (apply_event (daily_insert_default e) e) := by
  have he : eventsOn (pre ++ [e]) (date_naive e.start_time) = [e] := by
    rw [eventsOn_append_one, if_pos rfl, hnone, List.nil_append]
  constructor
  · simp [he]
  · simp [he, apply_event, daily_insert_default, DailyUsage.default0]
  · simp [apply_event, daily_insert_default, DailyUsage.default0, updAssoc]
  · intro a
    simp only [he, apply_event, daily_insert_default, DailyUsage.default0]
    rw [lookupD_updAssoc_add]
    by_cases h : a = e.app
    · simp [lookupD, lookupA, h]
    · have h2 : ¬ (e.app = a) := fun hx => h hx.symm
      simp [lookupD, lookupA, h, h2]
  · simp [he, apply_event, daily_insert_default, DailyUsage.default0]
  · intro t ht
    simp [he] at ht
    simp [apply_event, daily_insert_default, DailyUsage.default0, ht]
  · simp [he, apply_event, daily_insert_default, DailyUsage.default0]
  · intro t ht
    simp [he] at ht
    simp [apply_event, daily_insert_default, DailyUsage.default0, ht]

theorem dailyChar_upd {pre : List UsageData} {e : UsageData} {u0 : DailyUsage}
    (hc : DailyChar pre (date_naive e.start_time) u0) :
    DailyChar (pre ++ [e]) (date_naive e.start_time) (apply_event u0 e) := by
  have he : eventsOn (pre ++ [e]) (date_naive e.start_time) =
      eventsOn pre (date_naive e.start_time) ++ [e] := by
    rw [eventsOn_append_one, if_pos rfl]
  constructor
  · simp [he]
  · rw [he]
    simp [apply_event, hc.total_eq]
  · exact nodup_keys_updAssoc _ _ _ _ hc.keys_nodup
  · intro a
    rw [he]
    show lookupD a (updAssoc u0.per_app_usage e.app 0 (· + e.usage)) 0 = _
    rw [lookupD_updAssoc_add, hc.app_eq a]
    by_cases h : a = e.app
    · simp [h, List.filter_append]
    · have h2 : ¬ (e.app = a) := fun hx => h hx.symm
      simp [h, h2, List.filter_append]
  · rw [he, List.map_append]
    by_cases h : e.start_time < u0.first_usage
    · simp [apply_event, h]
    · have hfu : (apply_event u0 e).first_usage = u0.first_usage := by
        simp [apply_event, h]
      rw [hfu]
      exact List.mem_append.mpr (Or.inl hc.first_mem)
  · intro t ht
    rw [he, List.map_append] at ht
    rcases List.mem_append.mp ht with ht | ht
    · have h1 := hc.first_le t ht
      simp only [apply_event]
      split <;> omega
    · simp at ht
      subst ht
      simp only [apply_event]
      split <;> omega
  · rw [he, List.map_append]
    by_cases h : e.end_time > u0.last_usage
    · simp [apply_event, h]
    · have hlu : (apply_event u0 e).last_usage = u0.last_usage := by
        simp [apply_event, h]
      rw [hlu]
      exact List.mem_append.mpr (Or.inl hc.last_mem)
  · intro t ht
    rw [he, List.map_append] at ht
    rcases List.mem_append.mp ht with ht | ht
    · have h1 := hc.last_ge t ht
      simp only [apply_event]
      split <;> omega
    · simp at ht
      subst ht
      simp only [apply_event]
      split <;> omega

theorem pass1Inv_step {pre : List UsageData} {m : List (Int × DailyUsage)} {e : UsageData}
    (h : Pass1Inv pre m) : Pass1Inv (pre ++ [e]) (daily_step m e) := by
  obtain ⟨hnd, hnone, hsome⟩ := h
  refine ⟨nodup_keys_updAssoc _ _ _ _ hnd, ?_, ?_⟩
  · intro d hd
    by_cases hdd : d = date_naive e.start_time
    · subst hdd
      rw [daily_step, lookupA_updAssoc_self] at hd
      cases hd
    · rw [daily_step, lookupA_updAssoc_ne _ _ _ _ _ hdd] at hd
      rw [eventsOn_append_one, if_neg (fun hx => hdd hx.symm), List.append_nil]
      exact hnone d hd
  · intro d u hd
    by_cases hdd : d = date_naive e.start_time
    · subst hdd
      rw [daily_step, lookupA_updAssoc_self] at hd
      injection hd with hd
      cases hcase : lookupA (date_naive e.start_time) m with
      | none =>
        have hld : lookupD (date_naive e.start_time) m (daily_insert_default e) =
            daily_insert_default e := by
          rw [lookupD, hcase]
          rfl
        rw [hld] at hd
        exact hd ▸ dailyChar_new (hnone _ hcase)
      | some u0 =>
        have hld : lookupD (date_naive e.start_time) m (daily_insert_default e) = u0 := by
          rw [lookupD, hcase]
          rfl
        rw [hld] at hd
        exact hd ▸ dailyChar_upd (hsome _ u0 hcase)
    · rw [daily_step, lookupA_updAssoc_ne _ _ _ _ _ hdd] at hd
      exact dailyChar_append_other (fun hx => hdd hx.symm) (hsome d u hd)

theorem pass1Inv_fold :
    ∀ (l pre : List UsageData) (m : List (Int × DailyUsage)),
      Pass1Inv pre m → Pass1Inv (pre ++ l) (l.foldl daily_step m) := by
  intro l
  induction l with
  | nil =>
    intro pre m h
    simpa using h
  | cons e rest ih =>
    intro pre m h
    rw [List.foldl_cons]
    have h3 := ih (pre ++ [e]) (daily_step m e) (pass1Inv_step h)
    simpa [List.append_assoc] using h3

theorem pass1Inv_full (data : List UsageData) : Pass1Inv data (daily_pass1 data) := by
  have h0 : Pass1Inv [] ([] : List (Int × DailyUsage)) := by
    refine ⟨by simp, fun d _ => by simp [eventsOn], fun d u hd => ?_⟩
    simp [lookupA] at hd
  simpa using pass1Inv_fold data [] [] h0

theorem analyze_usage_char (data : List UsageData) (d : Int) (u : DailyUsage)
    (hmem : (d, u) ∈ analyze_usage data) : DailyChar data d u := by
  obtain ⟨u0, h0, rfl⟩ := (mem_analyze_iff data d u).mp hmem
  have hinv := pass1Inv_full data
  have hla : lookupA d (daily_pass1 data) = some u0 := lookupA_of_mem_nodup hinv.1 h0
  have hc := hinv.2.2 d u0 hla
  exact ⟨hc.nonempty, hc.total_eq, hc.keys_nodup, hc.app_eq, hc.first_mem, hc.first_le,
    hc.last_mem, hc.last_ge⟩

theorem mem_eventsOn (l : List UsageData) (d : Int) (e : UsageData) :
    e ∈ eventsOn l d ↔ e ∈ l ∧ date_naive e.start_time = d := by
  simp [eventsOn, List.mem_filter]

theorem analyze_keys_eq_pass1_keys (data : List UsageData) (d : Int) :
    d ∈ (analyze_usage data).map Prod.fst ↔ d ∈ (daily_pass1 data).map Prod.fst := by
  have hperm : ((analyze_usage data).map Prod.fst).Perm
      (((daily_pass1 data).map (daily_pass2 data)).map Prod.fst) :=
    (List.perm_insertionSort _ _).map _
  rw [hperm.mem_iff, List.map_map]
  have hcongr : ((daily_pass1 data).map (Prod.fst ∘ daily_pass2 data)) =
      (daily_pass1 data).map Prod.fst :=
    List.map_congr_left (fun x _ => rfl)
  rw [hcongr]

/-- C1 (amended): a date is a key of the daily aggregator's output exactly
when some input event's start instant falls on that UTC calendar date —
the bucketing uses `start_time.date_naive()` on the UTC instant, not the
local-timezone calendar date. -/
theorem daily_key_iff_utc_date (data : List UsageData) (d : Int) :
    d ∈ (analyze_usage data).map Prod.fst ↔ ∃ e ∈ data, date_naive e.start_time = d := by
  rw [analyze_keys_eq_pass1_keys]
  have hinv := pass1Inv_full data
  constructor
  · intro hd
    cases hcase : lookupA d (daily_pass1 data) with
    | none => exact absurd ((lookupA_eq_none_iff _ _).mp hcase) (by simpa using hd)
    | some u =>
      have hc := hinv.2.2 d u hcase
      have hne := hc.nonempty
      cases hev : eventsOn data d with
      | nil => exact absurd hev hne
      | cons e rest =>
        have he : e ∈ eventsOn data d := by
          rw [hev]
          simp
        obtain ⟨h1, h2⟩ := (mem_eventsOn data d e).mp he
        exact ⟨e, h1, h2⟩
  · rintro ⟨e, he, hd⟩
    by_contra hnk
    have hnone : lookupA d (daily_pass1 data) = none := (lookupA_eq_none_iff _ _).mpr hnk
    have hempty := hinv.2.1 d hnone
    have : e ∈ eventsOn data d := (mem_eventsOn data d e).mpr ⟨he, hd⟩
    rw [hempty] at this
    simp at this

/-- Counterexample to C1 as stated: in a timezone one hour east of UTC
(offset 3600 s), the event starting at instant 86000 (23:53:20 UTC on day
0) has local calendar date 1, yet the daily aggregator keys its bucket —
the bucket that summarises this sole event — by day 0, the UTC date of
the start instant. -/
theorem daily_key_local_counterexample :
    (analyze_usage [⟨"a", 100, 86000, 86100⟩]).map Prod.fst = [0] ∧
      local_date_naive 3600 86000 = 1 ∧ (0 : Int) ≠ 1 := by
  refine ⟨by decide, by decide, by decide⟩

/-! ### Weekly aggregation lemmas -/

theorem lookupD_merge_app (u : List (String × Int)) :
    ∀ (w : List (String × Int)) (a : String),
      lookupD a (merge_app_usage w u) 0 =
        lookupD a w 0 + ((u.filter (fun kv => kv.1 = a)).map Prod.snd).sum := by
  induction u with
  | nil => intro w a; simp [merge_app_usage]
  | cons kv rest ih =>
    intro w a
    have hstep : merge_app_usage w (kv :: rest) =
        merge_app_usage (updAssoc w kv.1 0 (· + kv.2)) rest := rfl
    rw [hstep, ih, lookupD_updAssoc_add]
    by_cases h : a = kv.1
    · subst h
      simp [List.filter_cons]
      omega
    · have h2 : ¬ (kv.1 = a) := fun hx => h hx.symm
      simp [List.filter_cons, h, h2]

theorem merge_app_keys_nodup (u : List (String × Int)) :
    ∀ w : List (String × Int), (w.map Prod.fst).Nodup →
      ((merge_app_usage w u).map Prod.fst).Nodup := by
  induction u with
  | nil => intro w h; simpa [merge_app_usage] using h
  | cons kv rest ih =>
    intro w h
    exact ih (updAssoc w kv.1 0 (· + kv.2)) (nodup_keys_updAssoc _ _ _ _ h)

theorem sum_filter_eq_lookupD (u : List (String × Int)) (a : String)
    (hnd : (u.map Prod.fst).Nodup) :
    ((u.filter (fun kv => kv.1 = a)).map Prod.snd).sum = lookupD a u 0 := by
  induction u with
  | nil => simp [lookupD, lookupA]
  | cons kv rest ih =>
    rw [List.map_cons, List.nodup_cons] at hnd
    by_cases h : kv.1 = a
    · have hnomem : ∀ x ∈ rest, ¬ (x.1 = a) := by
        intro x hx he
        exact hnd.1 (List.mem_map.mpr ⟨x, hx, (he.trans h.symm)⟩)
      have hzero : (rest.filter (fun kv => kv.1 = a)) = [] :=
        List.filter_eq_nil_iff.mpr (fun x hx => by simpa using hnomem x hx)
      simp [List.filter_cons, h, hzero, lookupD, lookupA]
    · simp [List.filter_cons, h, lookupD, lookupA, ih hnd.2]

theorem head?_append_left {α : Type} {l1 : List α} {x : α} (l2 : List α)
    (h : l1.head? = some x) : (l1 ++ l2).head? = some x := by
  cases l1 with
  | nil => simp at h
  | cons y rest => simpa using h

/-- The daily entries contributing to ISO week `w` (the entries of the
daily list whose date's ISO week number is `w`), in order. -/
def weekFilter (pre : List (Int × DailyUsage)) (w : Nat) : List (Int × DailyUsage) :=
  pre.filter (fun du => iso_week du.1 = w)

theorem weekFilter_append_one (pre : List (Int × DailyUsage)) (du : Int × DailyUsage)
    (w : Nat) :
    weekFilter (pre ++ [du]) w =
      weekFilter pre w ++ (if iso_week du.1 = w then [du] else []) := by
  by_cases h : iso_week du.1 = w <;> simp [weekFilter, List.filter_append, h]

/-- Everything the loop of `analyze_weekly_usage` establishes about the
accumulator entry of week `w` after processing the daily prefix `pre`:
the summed fields aggregate the contributing daily entries, and
`first_day`/`is_current_week` hold the values seeded when the first
contributing daily entry was inserted. -/
structure WeeklyChar (cw : Nat) (pre : List (Int × DailyUsage)) (w : Nat)
    (wu : WeeklyUsage) : Prop where
  total_eq : wu.total_usage = ((weekFilter pre w).map (fun du => du.2.total_usage)).sum
  net_eq : wu.net_active_hours =
    ((weekFilter pre w).map (fun du => du.2.net_active_time)).sum
  keys_nodup : (wu.per_app_usage.map Prod.fst).Nodup
  app_eq : ∀ a : String, lookupD a wu.per_app_usage 0 =
    ((weekFilter pre w).map
      (fun du => ((du.2.per_app_usage.filter (fun kv => kv.1 = a)).map Prod.snd).sum)).sum
  first_src : ∃ du0, (weekFilter pre w).head? = some du0 ∧
    wu.first_day = du0.1 - days_from_monday du0.1 ∧
    wu.is_current_week = (iso_week du0.1 == cw)

/-- The invariant of the loop of `analyze_weekly_usage`. -/
def WeeklyInv (cw : Nat) (pre : List (Int × DailyUsage))
    (m : List (Nat × WeeklyUsage)) : Prop :=
  (m.map Prod.fst).Nodup ∧
    (∀ w : Nat, lookupA w m = none → weekFilter pre w = []) ∧
    (∀ (w : Nat) (wu : WeeklyUsage), lookupA w m = some wu → WeeklyChar cw pre w wu)

theorem weeklyChar_append_other {cw : Nat} {pre : List (Int × DailyUsage)}
    {du : Int × DailyUsage} {w : Nat} {wu : WeeklyUsage} (hne : iso_week du.1 ≠ w)
    (hc : WeeklyChar cw pre w wu) : WeeklyChar cw (pre ++ [du]) w wu := by
  have he : weekFilter (pre ++ [du]) w = weekFilter pre w := by
    rw [weekFilter_append_one, if_neg hne, List.append_nil]
  exact ⟨he ▸ hc.total_eq, he ▸ hc.net_eq, hc.keys_nodup, fun a => he ▸ hc.app_eq a,
    he ▸ hc.first_src⟩

theorem weeklyChar_new {cw : Nat} {pre : List (Int × DailyUsage)} {du : Int × DailyUsage}
    (hnone : weekFilter pre (iso_week du.1) = []) :
    WeeklyChar cw (pre ++ [du]) (iso_week du.1)
      (let dflt : WeeklyUsage :=
        { WeeklyUsage.default0 with
          first_day := du.1 - days_from_monday du.1
          is_current_week := iso_week du.1 == cw }
       { dflt with
         total_usage := dflt.total_usage + du.2.total_usage
         net_active_hours := dflt.net_active_hours + du.2.net_active_time
         per_app_usage := merge_app_usage dflt.per_app_usage du.2.per_app_usage }) := by
  have he : weekFilter (pre ++ [du]) (iso_week du.1) = [du] := by
    rw [weekFilter_append_one, if_pos rfl, hnone, List.nil_append]
  constructor
  · simp [he, WeeklyUsage.default0]
  · simp [he, WeeklyUsage.default0]
  · exact merge_app_keys_nodup _ [] (by simp [WeeklyUsage.default0])
  · intro a
    show lookupD a (merge_app_usage [] du.2.per_app_usage) 0 = _
    rw [lookupD_merge_app]
    simp [he, lookupD, lookupA]
  · exact ⟨du, by simp [he], rfl, rfl⟩

theorem weeklyChar_upd {cw : Nat} {pre : List (Int × DailyUsage)} {du : Int × DailyUsage}
    {wu0 : WeeklyUsage} (hc : WeeklyChar cw pre (iso_week du.1) wu0) :
    WeeklyChar cw (pre ++ [du]) (iso_week du.1)
      ({ wu0 with
         total_usage := wu0.total_usage + du.2.total_usage
         net_active_hours := wu0.net_active_hours + du.2.net_active_time
         per_app_usage := merge_app_usage wu0.per_app_usage du.2.per_app_usage }) := by
  have he : weekFilter (pre ++ [du]) (iso_week du.1) =
      weekFilter pre (iso_week du.1) ++ [du] := by
    rw [weekFilter_append_one, if_pos rfl]
  constructor
  · simp [he, hc.total_eq]
  · simp [he, hc.net_eq]
  · exact merge_app_keys_nodup _ _ hc.keys_nodup
  · intro a
    rw [lookupD_merge_app]
    simp [he, hc.app_eq a]
  · obtain ⟨du0, hh, h1, h2⟩ := hc.first_src
    refine ⟨du0, ?_, h1, h2⟩
    rw [he]
    exact head?_append_left [du] hh

theorem weeklyInv_step {cw : Nat} {pre : List (Int × DailyUsage)}
    {m : List (Nat × WeeklyUsage)} {du : Int × DailyUsage} (h : WeeklyInv cw pre m) :
    WeeklyInv cw (pre ++ [du]) (weekly_step cw m du) := by
  obtain ⟨hnd, hnone, hsome⟩ := h
  refine ⟨nodup_keys_updAssoc _ _ _ _ hnd, ?_, ?_⟩
  · intro w hw
    by_cases hww : w = iso_week du.1
    · subst hww
      rw [weekly_step, lookupA_updAssoc_self] at hw
      cases hw
    · rw [weekly_step, lookupA_updAssoc_ne _ _ _ _ _ hww] at hw
      rw [weekFilter_append_one, if_neg (fun hx => hww hx.symm), List.append_nil]
      exact hnone w hw
  · intro w wu hw
    by_cases hww : w = iso_week du.1
    · subst hww
      rw [weekly_step, lookupA_updAssoc_self] at hw
      injection hw with hw
      cases hcase : lookupA (iso_week du.1) m with
      | none =>
        have hld : lookupD (iso_week du.1) m
            ({ WeeklyUsage.default0 with
               first_day := du.1 - days_from_monday du.1
               is_current_week := iso_week du.1 == cw }) =
            ({ WeeklyUsage.default0 with
               first_day := du.1 - days_from_monday du.1
               is_current_week := iso_week du.1 == cw }) := by
          rw [lookupD, hcase]
          rfl
        rw [hld] at hw
        exact hw ▸ weeklyChar_new (hnone _ hcase)
      | some wu0 =>
        have hld : lookupD (iso_week du.1) m
            ({ WeeklyUsage.default0 with
               first_day := du.1 - days_from_monday du.1
               is_current_week := iso_week du.1 == cw }) = wu0 := by
          rw [lookupD, hcase]
          rfl
        rw [hld] at hw
        exact hw ▸ weeklyChar_upd (hsome _ wu0 hcase)
    · rw [weekly_step, lookupA_updAssoc_ne _ _ _ _ _ hww] at hw
      exact weeklyChar_append_other (fun hx => hww hx.symm) (hsome w wu hw)

theorem weeklyInv_fold (cw : Nat) :
    ∀ (l pre : List (Int × DailyUsage)) (m : List (Nat × WeeklyUsage)),
      WeeklyInv cw pre m → WeeklyInv cw (pre ++ l) (l.foldl (weekly_step cw) m) := by
  intro l
  induction l with
  | nil =>
    intro pre m h
    simpa using h
  | cons du rest ih =>
    intro pre m h
    rw [List.foldl_cons]
    have h3 := ih (pre ++ [du]) (weekly_step cw m du) (weeklyInv_step h)
    simpa [List.append_assoc] using h3

theorem weeklyInv_full (daily : List (Int × DailyUsage)) (cw : Nat) :
    WeeklyInv cw daily (daily.foldl (weekly_step cw) []) := by
  have h0 : WeeklyInv cw [] ([] : List (Nat × WeeklyUsage)) := by
    refine ⟨by simp, fun w _ => by simp [weekFilter], fun w wu hw => ?_⟩
    simp [lookupA] at hw
  simpa using weeklyInv_fold cw daily [] [] h0

theorem mem_weekly_char (daily : List (Int × DailyUsage)) (cw w : Nat) (wu : WeeklyUsage)
    (hmem : (w, wu) ∈ analyze_weekly_usage daily cw) : WeeklyChar cw daily w wu := by
  have hinv := weeklyInv_full daily cw
  have hm2 : (w, wu) ∈ daily.foldl (weekly_step cw) [] :=
    (List.perm_insertionSort _ _).mem_iff.mp hmem
  exact hinv.2.2 w wu (lookupA_of_mem_nodup hinv.1 hm2)

/-- C6: for every `WeeklyUsage` produced by the weekly aggregator over the
daily aggregator's output, `total_usage` is the sum of `total_usage` over
the constituent daily entries (those whose date's ISO week number equals
the week key), and the per-app map is the additive merge of the
constituent days' per-app maps: the weekly per-app value of every app is
the sum of that app's daily values. -/
theorem weekly_totals_eq (data : List UsageData) (cw w : Nat) (wu : WeeklyUsage)
    (hmem : (w, wu) ∈ analyze_weekly_usage (analyze_usage data) cw) :
    wu.total_usage =
      ((weekFilter (analyze_usage data) w).map (fun du => du.2.total_usage)).sum ∧
      ∀ a : String, lookupD a wu.per_app_usage 0 =
        ((weekFilter (analyze_usage data) w).map
          (fun du => lookupD a du.2.per_app_usage 0)).sum := by
  have hc := mem_weekly_char (analyze_usage data) cw w wu hmem
  refine ⟨hc.total_eq, fun a => ?_⟩
  rw [hc.app_eq a]
  apply congrArg List.sum
  apply List.map_congr_left
  intro du hdu
  have hmemA : du ∈ analyze_usage data := List.mem_of_mem_filter hdu
  obtain ⟨d0, u0⟩ := du
  exact sum_filter_eq_lookupD _ a (analyze_usage_char data d0 u0 hmemA).keys_nodup

/-- Witness for C6 at the spec scenario input (day 0 is in ISO week 1). -/
theorem weekly_totals_eq_witness :
    ((1 : Nat),
      ({ total_usage := 2700, net_active_hours := 2700,
         per_app_usage := [("Browser", 1800), ("Editor", 900)],
         first_day := -3, is_current_week := true } : WeeklyUsage)) ∈
        analyze_weekly_usage
          (analyze_usage [⟨"Browser", 1800, 32400, 34200⟩, ⟨"Editor", 900, 35100, 36000⟩]) 1 ∧
      (2700 : Int) = ((weekFilter
        (analyze_usage [⟨"Browser", 1800, 32400, 34200⟩, ⟨"Editor", 900, 35100, 36000⟩]) 1).map
          (fun du => du.2.total_usage)).sum :=
  ⟨by decide,
    (weekly_totals_eq [⟨"Browser", 1800, 32400, 34200⟩, ⟨"Editor", 900, 35100, 36000⟩] 1 1
      { total_usage := 2700, net_active_hours := 2700,
        per_app_usage := [("Browser", 1800), ("Editor", 900)],
        first_day := -3, is_current_week := true }
      (by decide)).1⟩

/-- C10: for every week key in the weekly aggregator's output, `first_day`
and `is_current_week` hold exactly the values seeded from the first daily
entry (in iteration order) whose ISO week number equals that key — the
merge applied for every later constituent entry updates only
`total_usage`, `net_active_hours` and `per_app_usage`, so the seeded
fields are never overwritten. -/
theorem weekly_first_day_frozen (daily : List (Int × DailyUsage)) (cw w : Nat)
    (wu : WeeklyUsage) (hmem : (w, wu) ∈ analyze_weekly_usage daily cw) :
    ∃ du0, (weekFilter daily w).head? = some du0 ∧
      wu.first_day = du0.1 - days_from_monday du0.1 ∧
      wu.is_current_week = (iso_week du0.1 == cw) :=
  (mem_weekly_char daily cw w wu hmem).first_src

/-- Witness for C10: two daily entries (days 0 and 1) merge into ISO week
1; `first_day` is the Monday of the first entry's week (day -3) and
`is_current_week` is seeded from the first entry. -/
theorem weekly_first_day_frozen_witness :
    ((1 : Nat),
      ({ total_usage := 0, net_active_hours := 0, per_app_usage := [],
         first_day := -3, is_current_week := false } : WeeklyUsage)) ∈
        analyze_weekly_usage [((0 : Int), DailyUsage.default0),
          ((1 : Int), DailyUsage.default0)] 5 ∧
      ∃ du0, (weekFilter [((0 : Int), DailyUsage.default0),
          ((1 : Int), DailyUsage.default0)] 1).head? = some du0 ∧
        (-3 : Int) = du0.1 - days_from_monday du0.1 ∧
        false = (iso_week du0.1 == 5) :=
  ⟨by decide,
    weekly_first_day_frozen [((0 : Int), DailyUsage.default0), ((1 : Int), DailyUsage.default0)]
      5 1
      { total_usage := 0, net_active_hours := 0, per_app_usage := [],
        first_day := -3, is_current_week := false }
      (by decide)⟩

/-! ### Permutation invariance of the daily aggregation -/

instance intGtAntisymm : IsAntisymm Int (fun x y => y < x) :=
  ⟨fun _ b h1 h2 => absurd (lt_trans h1 h2) (lt_irrefl b)⟩

instance sessLtAntisymm : IsAntisymm (Int × Int) (fun a b => a.1 < b.1) :=
  ⟨fun a _ h1 h2 => absurd (lt_trans h1 h2) (lt_irrefl a.1)⟩

theorem pairwise_lt_of_le_nodup {l : List (Int × Int)}
    (hle : List.Pairwise (fun a b : Int × Int => a.1 ≤ b.1) l)
    (hnd : (l.map Prod.fst).Nodup) :
    List.Pairwise (fun a b : Int × Int => a.1 < b.1) l := by
  have hne : List.Pairwise (fun a b : Int × Int => a.1 ≠ b.1) l := List.pairwise_map.mp hnd
  exact (hle.and hne).imp (fun h => lt_of_le_of_ne h.1 h.2)

theorem sortSessions_eq_of_perm {s1 s2 : List (Int × Int)} (hp : s1.Perm s2)
    (hnd : (s1.map Prod.fst).Nodup) : sortSessions s1 = sortSessions s2 := by
  have hp2 : (sortSessions s1).Perm (sortSessions s2) :=
    (sortSessions_perm s1).trans (hp.trans (sortSessions_perm s2).symm)
  have hnd1 : ((sortSessions s1).map Prod.fst).Nodup :=
    (((sortSessions_perm s1).map Prod.fst).nodup_iff).mpr hnd
  have hnd2 : ((sortSessions s2).map Prod.fst).Nodup := by
    have h2 : (s2.map Prod.fst).Nodup := ((hp.map Prod.fst).nodup_iff).mp hnd
    exact (((sortSessions_perm s2).map Prod.fst).nodup_iff).mpr h2
  have hst1 := pairwise_lt_of_le_nodup (sortSessions_sorted s1) hnd1
  have hst2 := pairwise_lt_of_le_nodup (sortSessions_sorted s2) hnd2
  exact List.eq_of_perm_of_sorted hp2 hst1 hst2

theorem sessions_fst_nodup (data : List UsageData) (d : Int)
    (hnd : (data.map (fun e => e.start_time)).Nodup) :
    ((sessions_for data d).map Prod.fst).Nodup := by
  have heq : (sessions_for data d).map Prod.fst = (eventsOn data d).map (fun e => e.start_time) := by
    rw [sessions_for_eq_eventsOn, List.map_map]
    rfl
  rw [heq]
  exact List.Nodup.sublist (List.Sublist.map _ (List.filter_sublist data)) hnd

theorem analyze_keys_nodup (data : List UsageData) :
    ((analyze_usage data).map Prod.fst).Nodup := by
  have h1 : ((daily_pass1 data).map Prod.fst).Nodup := (pass1Inv_full data).1
  have h2 : (((daily_pass1 data).map (daily_pass2 data)).map Prod.fst) =
      (daily_pass1 data).map Prod.fst := by
    rw [List.map_map]
    exact List.map_congr_left (fun x _ => rfl)
  have hperm : ((analyze_usage data).map Prod.fst).Perm
      (((daily_pass1 data).map (daily_pass2 data)).map Prod.fst) :=
    (List.perm_insertionSort _ _).map _
  rw [h2] at hperm
  exact hperm.nodup_iff.mpr h1

theorem analyze_keys_sorted (data : List UsageData) :
    List.Pairwise (fun x y : Int => y < x) ((analyze_usage data).map Prod.fst) := by
  have hs : List.Pairwise (fun a b : Int × DailyUsage => b.1 ≤ a.1) (analyze_usage data) :=
    List.sorted_insertionSort _ _
  have hle : List.Pairwise (fun x y : Int => y ≤ x) ((analyze_usage data).map Prod.fst) :=
    List.pairwise_map.mpr hs
  have hne : List.Pairwise (fun x y : Int => x ≠ y) ((analyze_usage data).map Prod.fst) :=
    analyze_keys_nodup data
  exact (hle.and hne).imp (fun h => lt_of_le_of_ne h.1 h.2.symm)

theorem analyze_keys_eq_of_perm (data1 data2 : List UsageData) (hperm : data1.Perm data2) :
    (analyze_usage data1).map Prod.fst = (analyze_usage data2).map Prod.fst := by
  have hmemiff : ∀ d : Int,
      d ∈ (analyze_usage data1).map Prod.fst ↔ d ∈ (analyze_usage data2).map Prod.fst := by
    intro d
    rw [daily_key_iff_utc_date, daily_key_iff_utc_date]
    constructor
    · rintro ⟨e, he, hd⟩
      exact ⟨e, hperm.mem_iff.mp he, hd⟩
    · rintro ⟨e, he, hd⟩
      exact ⟨e, hperm.mem_iff.mpr he, hd⟩
  have hp : ((analyze_usage data1).map Prod.fst).Perm ((analyze_usage data2).map Prod.fst) :=
    (List.perm_ext_iff_of_nodup (analyze_keys_nodup data1) (analyze_keys_nodup data2)).mpr hmemiff
  exact List.eq_of_perm_of_sorted hp (analyze_keys_sorted data1) (analyze_keys_sorted data2)

/-- Componentwise equality of two ordered daily outputs: same date key and
equal summaries, with the per-app maps compared extensionally by lookup
(the only map view the program exposes; the hash map's iteration order is
unspecified). -/
def DailyEquiv (a b : Int × DailyUsage) : Prop :=
  a.1 = b.1 ∧ a.2.total_usage = b.2.total_usage ∧ a.2.first_usage = b.2.first_usage ∧
    a.2.last_usage = b.2.last_usage ∧ a.2.breaks = b.2.breaks ∧
    a.2.net_active_time = b.2.net_active_time ∧
    ∀ app : String, lookupD app a.2.per_app_usage 0 = lookupD app b.2.per_app_usage 0

theorem analyze_entry_equiv (data1 data2 : List UsageData) (d : Int) (u1 u2 : DailyUsage)
    (hperm : data1.Perm data2) (hnd : (data1.map (fun e => e.start_time)).Nodup)
    (h1 : (d, u1) ∈ analyze_usage data1) (h2 : (d, u2) ∈ analyze_usage data2) :
    DailyEquiv (d, u1) (d, u2) := by
  have hc1 := analyze_usage_char data1 d u1 h1
  have hc2 := analyze_usage_char data2 d u2 h2
  have hpe : (eventsOn data1 d).Perm (eventsOn data2 d) := hperm.filter _
  have htot : u1.total_usage = u2.total_usage := by
    rw [hc1.total_eq, hc2.total_eq]
    exact (hpe.map _).sum_eq
  have hfirst : u1.first_usage = u2.first_usage := by
    apply le_antisymm
    · exact hc1.first_le _ ((hpe.map _).mem_iff.mpr hc2.first_mem)
    · exact hc2.first_le _ ((hpe.map _).mem_iff.mp hc1.first_mem)
  have hlast : u1.last_usage = u2.last_usage := by
    apply le_antisymm
    · exact hc2.last_ge _ ((hpe.map _).mem_iff.mp hc1.last_mem)
    · exact hc1.last_ge _ ((hpe.map _).mem_iff.mpr hc2.last_mem)
  have hsp : (sessions_for data1 d).Perm (sessions_for data2 d) := by
    rw [sessions_for_eq_eventsOn, sessions_for_eq_eventsOn]
    exact hpe.map _
  have hsess : sortSessions (sessions_for data1 d) = sortSessions (sessions_for data2 d) :=
    sortSessions_eq_of_perm hsp (sessions_fst_nodup data1 d hnd)
  have hbr : u1.breaks = u2.breaks := by
    rw [analyze_breaks_eq data1 d u1 h1, analyze_breaks_eq data2 d u2 h2, hsess]
  have hnet : u1.net_active_time = u2.net_active_time := by
    rw [analyze_net_eq data1 d u1 h1, analyze_net_eq data2 d u2 h2, hsess, hfirst, hlast]
  refine ⟨rfl, htot, hfirst, hlast, hbr, hnet, fun a => ?_⟩
  rw [hc1.app_eq a, hc2.app_eq a]
  exact ((hpe.filter _).map _).sum_eq

theorem forall2_of_keys_eq {α β : Type} {R : (Int × α) → (Int × β) → Prop} :
    ∀ (l1 : List (Int × α)) (l2 : List (Int × β)),
      l1.map Prod.fst = l2.map Prod.fst →
      (∀ x ∈ l1, ∀ y ∈ l2, x.1 = y.1 → R x y) →
      List.Forall₂ R l1 l2 := by
  intro l1
  induction l1 with
  | nil =>
    intro l2 hk _
    cases l2 with
    | nil => exact List.Forall₂.nil
    | cons b t2 => simp at hk
  | cons a t1 ih =>
    intro l2 hk hR
    cases l2 with
    | nil => simp at hk
    | cons b t2 =>
      simp only [List.map_cons] at hk
      injection hk with hk1 hk2
      refine List.Forall₂.cons (hR a (by simp) b (by simp) hk1) (ih t2 hk2 ?_)
      intro x hx y hy hxy
      exact hR x (by simp [hx]) y (by simp [hy]) hxy

/-- C9: the daily aggregator is invariant under permutation of its input
when all start instants are pairwise distinct: both runs produce the same
dates in the same order, and for each date equal totals, first/last
usage, breaks, net active time, and extensionally equal per-app maps. -/
theorem analyze_usage_perm_invariant (data1 data2 : List UsageData)
    (hperm : data1.Perm data2) (hnd : (data1.map (fun e => e.start_time)).Nodup) :
    List.Forall₂ DailyEquiv (analyze_usage data1) (analyze_usage data2) := by
  apply forall2_of_keys_eq _ _ (analyze_keys_eq_of_perm data1 data2 hperm)
  intro x hx y hy hxy
  obtain ⟨d, u1⟩ := x
  obtain ⟨d2, u2⟩ := y
  have hd : d = d2 := hxy
  subst hd
  exact analyze_entry_equiv data1 data2 d u1 u2 hperm hnd hx hy

/-- Witness for C9: the two orderings of the spec scenario's events give
equivalent ordered outputs. -/
theorem analyze_usage_perm_invariant_witness :
    ([⟨"Browser", 1800, 32400, 34200⟩, ⟨"Editor", 900, 35100, 36000⟩] : List UsageData).Perm
        [⟨"Editor", 900, 35100, 36000⟩, ⟨"Browser", 1800, 32400, 34200⟩] ∧
      (([⟨"Browser", 1800, 32400, 34200⟩, ⟨"Editor", 900, 35100, 36000⟩] :
          List UsageData).map (fun e => e.start_time)).Nodup ∧
      List.Forall₂ DailyEquiv
        (analyze_usage [⟨"Browser", 1800, 32400, 34200⟩, ⟨"Editor", 900, 35100, 36000⟩])
        (analyze_usage [⟨"Editor", 900, 35100, 36000⟩, ⟨"Browser", 1800, 32400, 34200⟩]) :=
  ⟨by decide, by decide,
    analyze_usage_perm_invariant
      [⟨"Browser", 1800, 32400, 34200⟩, ⟨"Editor", 900, 35100, 36000⟩]
      [⟨"Editor", 900, 35100, 36000⟩, ⟨"Browser", 1800, 32400, 34200⟩]
      (by decide) (by decide)⟩
